import Mathlib

/-!
# Heap-Library: a binary max-heap over a fixed global vector, and heap sort

Shallow embedding of `src/Heap_Library.cpp`.

* The two globals `heap` (a `vector<int>` of `max_size` slots, valid indices
  `0 .. max_size-1`) and `size_of_heap` form the `State`.
* Every `heap[k]` of the source is a bounds-checked access here: an index outside
  `0 .. max_size-1` has no defined behaviour in C++, and the embedding stops with
  `Fault.out_of_bounds k`.
* The `while` loop of `shift_up` and the recursion of `shift_down` are unrolled by a
  step budget; running out of budget is the separate fault `Fault.out_of_fuel`.
* `int` positions are `Int`; all positions that pass a bounds check are below
  `max_size`, far from the 32-bit limit, so `2*i` and `2*i+1` are exact.
-/

namespace HeapLibrary

/-! ## Data model -/

/-- Maximum possible size of heap: `const int max_size=100000+7`. -/
def max_size : Int := 100000 + 7

/-- Upper bound of the int data type: `const int positive_infinity=INT_MAX`. -/
def positive_infinity : Int := 2147483647

/-- Ways in which a run of the code can stop without a result. -/
inductive Fault where
  | out_of_bounds (index : Int)
  | out_of_fuel
  deriving DecidableEq, Repr

/-- The two globals: `vector <int> heap(max_size)` and `int size_of_heap`. -/
structure State where
  heap : Int → Int
  size_of_heap : Int

/-- The state at program start: `heap` is zero-filled and `size_of_heap=0`. -/
def State.init : State := ⟨fun _ => 0, 0⟩

/-- An index the vector `heap` really has: `0 .. max_size-1`. -/
def in_store (k : Int) : Prop := 0 ≤ k ∧ k < max_size

instance (k : Int) : Decidable (in_store k) := by
  unfold in_store; infer_instance

/-- Reading `heap[k]`. -/
def State.read (s : State) (k : Int) : Except Fault Int :=
  if in_store k then .ok (s.heap k) else .error (.out_of_bounds k)

/-- Writing `heap[k]=v`. -/
def State.write (s : State) (k v : Int) : Except Fault State :=
  if in_store k then .ok { s with heap := Function.update s.heap k v }
  else .error (.out_of_bounds k)

/-- The call `swap(heap[i],heap[j])`. -/
def State.swap (s : State) (i j : Int) : Except Fault State := do
  let x ← s.read i
  let y ← s.read j
  let s1 ← s.write i y
  s1.write j x

/-! ## Navigation helpers -/

/-- Source `parent`: `-1` for the root, else `i/2` (C++ division truncates). -/
def parent (i : Int) : Int :=
  if i = 1 then -1 else Int.tdiv i 2

/-- Source `left_child`: `2*i`, or `-1` when that exceeds `size_of_heap`. -/
def left_child (s : State) (i : Int) : Int :=
  let l := 2 * i
  if l > s.size_of_heap then -1 else l

/-- Source `right_child`: `2*i+1`, or `-1` when that exceeds `size_of_heap`. -/
def right_child (s : State) (i : Int) : Int :=
  let r := 2 * i + 1
  if r > s.size_of_heap then -1 else r

/-! ## shift_up and shift_down -/

/-- The `while` loop of `shift_up`, one iteration per unit of budget. -/
def shift_up_loop : Nat → State → Int → Except Fault State
  | 0, _, _ => .error .out_of_fuel
  | fuel + 1, s, i =>
    if i > 1 then do
      let p ← s.read (parent i)
      let c ← s.read i
      if p < c then do
        let s1 ← s.swap i (parent i)
        shift_up_loop fuel s1 (parent i)
      else pure s
    else pure s

/-- Source `shift_up`; the position halves on every iteration, so a budget of
`i+1` iterations is never used up. -/
def shift_up (s : State) (i : Int) : Except Fault State :=
  shift_up_loop (i.toNat + 1) s i

/-- One statement `if(c<=size_of_heap and heap[c]>heap[mxindex]) mxindex=c;` of
`shift_down`; the result is the new `mxindex`. The test `c<=size_of_heap` is the
only guard in front of `heap[c]`. -/
def bigger_child (s : State) (c mxindex : Int) : Except Fault Int :=
  if c ≤ s.size_of_heap then do
    let x ← s.read c
    let y ← s.read mxindex
    pure (if x > y then c else mxindex)
  else pure mxindex

/-- The recursion of `shift_down`, one call per unit of budget. -/
def shift_down_rec : Nat → State → Int → Except Fault State
  | 0, _, _ => .error .out_of_fuel
  | fuel + 1, s, i => do
    let mxindex := i
    let l := left_child s i
    let mxindex ← bigger_child s l mxindex
    let r := right_child s i
    let mxindex ← bigger_child s r mxindex
    if i ≠ mxindex then do
      let s1 ← s.swap i mxindex
      shift_down_rec fuel s1 mxindex
    else pure s

/-- Source `shift_down`; a recursive call is made on a position at least twice the
current one, so `size_of_heap+2` calls are never used up. -/
def shift_down (s : State) (i : Int) : Except Fault State :=
  shift_down_rec (s.size_of_heap.toNat + 2) s i

/-! ## Public operations -/

/-- Source `get_max`: `return heap[1];`. -/
def get_max (s : State) : Except Fault (Int × State) := do
  let r ← s.read 1
  pure (r, s)

/-- Source `insert`; the full-heap branch prints a message and returns. -/
def insert (s : State) (value : Int) : Except Fault State :=
  if s.size_of_heap = max_size then pure s
  else do
    let s1 : State := { s with size_of_heap := s.size_of_heap + 1 }
    let s2 ← s1.write s1.size_of_heap value
    shift_up s2 s2.size_of_heap

/-- Source `extract_max`. -/
def extract_max (s : State) : Except Fault (Int × State) := do
  let result ← s.read 1
  let last ← s.read s.size_of_heap
  let s1 ← s.write 1 last
  let s2 : State := { s1 with size_of_heap := s1.size_of_heap - 1 }
  let s3 ← shift_down s2 1
  pure (result, s3)

/-- Source `remove`. -/
def remove (s : State) (i : Int) : Except Fault (Int × State) := do
  let s1 ← s.write i positive_infinity
  let s2 ← shift_up s1 i
  extract_max s2

/-- Source `update`. -/
def update (s : State) (i new_value : Int) : Except Fault State := do
  let old_value ← s.read i
  let s1 ← s.write i new_value
  if old_value < new_value then shift_up s1 i else shift_down s1 i

/-- Start value of the loop in `build_heap`: `ceil(n/2.0)` converted to `int`
(exact in double precision for every 32-bit `n`). -/
def half_up (n : Int) : Int := -((-n) / 2)

/-- The `for` loop of `build_heap`, from position `k` down to `1`. -/
def build_heap_loop : Nat → State → Except Fault State
  | 0, s => pure s
  | k + 1, s => do
    let s1 ← shift_down s ((k : Int) + 1)
    build_heap_loop k s1

/-- Source `build_heap(a,n)`. The parameter `a` is not used by the body: every
access goes to the global `heap`. -/
def build_heap (s : State) (n : Int) : Except Fault State :=
  build_heap_loop (half_up n).toNat { s with size_of_heap := n }

/-- The `while(repeat-- >0)` loop of `heap_sort`, with `a` bound to `heap`. -/
def heap_sort_loop : Nat → State → Except Fault State
  | 0, s => pure s
  | k + 1, s => do
    let s1 ← s.swap 1 s.size_of_heap
    let s2 : State := { s1 with size_of_heap := s1.size_of_heap - 1 }
    let s3 ← shift_down s2 1
    heap_sort_loop k s3

/-- Source `heap_sort(a,n)` called as `heap_sort(heap,n)`: the reference `a` is the
global vector itself. The loop body runs `n-1` times (not at all for `n ≤ 1`). -/
def heap_sort (s : State) (n : Int) : Except Fault State := do
  let s1 ← build_heap s n
  heap_sort_loop (n - 1).toNat s1

/-! ## Specification vocabulary -/

/-- The max-heap invariant of the data model: every valid position other than the
root holds a value no greater than its parent's. -/
def max_heap (s : State) : Prop :=
  ∀ i : Int, 1 < i → i ≤ s.size_of_heap → s.heap i ≤ s.heap (parent i)

/-- The multiset of values at the valid positions `1..size_of_heap`. -/
def elements (s : State) : Multiset Int :=
  (Finset.Icc 1 s.size_of_heap).val.map s.heap

/-- A state from a list of values for positions `1, 2, ...` (position `0` and all
other slots hold `0`), with the given `size_of_heap`. -/
def State.of_list (vals : List Int) (size : Int) : State :=
  ⟨fun k => if 1 ≤ k then vals.getD (k - 1).toNat 0 else 0, size⟩

/-- The position that `shift_down` computes as `mxindex` when both children of `i`
are valid positions: the left child if it is strictly greater than `i`, then the
right child if it is strictly greater than that. -/
def largest_of_three (f : Int → Int) (i : Int) : Int :=
  let m := if f (2 * i) > f i then 2 * i else i
  if f (2 * i + 1) > f m then 2 * i + 1 else m

/-- Inserting the values of a list one by one, in order. -/
def insert_all : State → List Int → Except Fault State
  | s, [] => pure s
  | s, v :: vs => do
    let s1 ← insert s v
    insert_all s1 vs

/-- Calling `extract_max` a given number of times; the returned values in call order. -/
def extract_all : Nat → State → Except Fault (List Int × State)
  | 0, s => pure ([], s)
  | k + 1, s => do
    let r ← extract_max s
    let rest ← extract_all k r.2
    pure (r.1 :: rest.1, rest.2)

/-- A vector of the caller, other than the global `heap`: slots `0 .. len-1`. -/
structure Vec where
  data : Int → Int
  len : Int

/-- The call `swap(a[i],a[j])` on a vector of the caller. -/
def Vec.swap (a : Vec) (i j : Int) : Except Fault Vec :=
  if 0 ≤ i ∧ i < a.len then
    if 0 ≤ j ∧ j < a.len then
      .ok ⟨Function.update (Function.update a.data i (a.data j)) j (a.data i), a.len⟩
    else .error (.out_of_bounds j)
  else .error (.out_of_bounds i)

/-- A vector of the caller from a list of values for positions `1, 2, ...`; its
length is one more than the number of values (slot `0` is there and holds `0`). -/
def Vec.of_list (vals : List Int) : Vec :=
  ⟨fun k => if 1 ≤ k then vals.getD (k - 1).toNat 0 else 0, vals.length + 1⟩

/-- The `while(repeat-- >0)` loop of `heap_sort` when `a` is a vector of the caller:
`swap(a[1],a[size_of_heap])` works on `a`, while `shift_down(1)` works on the global
`heap`. -/
def heap_sort_on_loop : Nat → State → Vec → Except Fault (State × Vec)
  | 0, s, a => pure (s, a)
  | k + 1, s, a => do
    let a1 ← a.swap 1 s.size_of_heap
    let s2 : State := { s with size_of_heap := s.size_of_heap - 1 }
    let s3 ← shift_down s2 1
    heap_sort_on_loop k s3 a1

/-- Source `heap_sort(a,n)` called with a vector `a` of the caller that is not the
global `heap`. `build_heap(a,n)` never looks at `a`. -/
def heap_sort_on (s : State) (a : Vec) (n : Int) : Except Fault (State × Vec) := do
  let s1 ← build_heap s n
  heap_sort_on_loop (n - 1).toNat s1 a

/-- The run `build_heap` followed by `n` calls of `extract_max`. -/
def build_then_extract (s : State) (n : Int) : Except Fault (List Int × State) := do
  let s1 ← build_heap s n
  extract_all n.toNat s1

/-- The store `f` with the values `xs` written behind position `m`, last value
first: `xs[0]` at position `m + xs.length`, `xs[1]` one position below, and so on
down to position `m + 1`. -/
def stored_back (f : Int → Int) (m : Int) (xs : List Int) : Int → Int :=
  fun p => if m < p ∧ p ≤ m + xs.length then xs.getD (m + xs.length - p).toNat 0 else f p

/-- The positions from `i` up to the root, following `parent`, at most `fuel` of
them. -/
def path_to_root : Nat → Int → List Int
  | 0, _ => []
  | fuel + 1, i => if 1 ≤ i then i :: path_to_root fuel (parent i) else []

/-- The path from position `i` to the root: `i`, `parent(i)`, ..., `1`. -/
def root_path (i : Int) : List Int := path_to_root (i.toNat + 1) i

theorem read_ok (s : State) (k : Int) (h : in_store k) : s.read k = .ok (s.heap k) := by
  simp [State.read, h]

theorem read_fault (s : State) (k : Int) (h : ¬ in_store k) :
    s.read k = .error (.out_of_bounds k) := by
  simp [State.read, h]

theorem write_ok (s : State) (k v : Int) (h : in_store k) :
    s.write k v = .ok ⟨Function.update s.heap k v, s.size_of_heap⟩ := by
  simp [State.write, h]

theorem swap_ok (s : State) (i j : Int) (hi : in_store i) (hj : in_store j) :
    s.swap i j = .ok ⟨Function.update (Function.update s.heap i (s.heap j)) j (s.heap i),
      s.size_of_heap⟩ := by
  simp [State.swap, read_ok, write_ok, hi, hj, bind, Except.bind]

theorem not_in_store_neg_one : ¬ in_store (-1) := by
  simp [in_store]

/-- The guard `c<=size_of_heap` lets the "no child" value `-1` through: with a
non-negative `size_of_heap` the comparison reads `heap[-1]`. -/
theorem bigger_child_neg_one (s : State) (mx : Int) (h : 0 ≤ s.size_of_heap) :
    bigger_child s (-1) mx = .error (.out_of_bounds (-1)) := by
  have h1 : (-1 : Int) ≤ s.size_of_heap := by omega
  simp [bigger_child, h1, read_fault, not_in_store_neg_one, bind, Except.bind]

/-- A call of `shift_down` on a position without a right child (a leaf, or a node
with a left child only) reads `heap[-1]`. -/
theorem shift_down_rec_missing_child (fuel : Nat) (s : State) (i : Int)
    (h1 : 1 ≤ i) (hi : i < max_size) (h0 : 0 ≤ s.size_of_heap)
    (hsz : s.size_of_heap < max_size) (hr : s.size_of_heap < 2 * i + 1) :
    shift_down_rec (fuel + 1) s i = .error (.out_of_bounds (-1)) := by
  have hr1 : right_child s i = -1 := by simp [right_child, hr]
  by_cases hl : 2 * i > s.size_of_heap
  · have hl1 : left_child s i = -1 := by simp [left_child, hl]
    simp [shift_down_rec, hl1, bigger_child_neg_one s _ h0, bind, Except.bind]
  · have hl1 : left_child s i = 2 * i := by simp [left_child, hl]
    have hle : 2 * i ≤ s.size_of_heap := by omega
    have hin1 : in_store (2 * i) := ⟨by omega, by omega⟩
    have hin2 : in_store i := ⟨by omega, hi⟩
    have hb : bigger_child s (2 * i) i =
        .ok (if s.heap (2 * i) > s.heap i then 2 * i else i) := by
      simp [bigger_child, hle, read_ok, hin1, hin2, bind, Except.bind, pure, Except.pure]
    simp [shift_down_rec, hl1, hr1, hb, bigger_child_neg_one s _ h0, bind, Except.bind]

theorem shift_down_missing_child (s : State) (i : Int)
    (h1 : 1 ≤ i) (hi : i < max_size) (h0 : 0 ≤ s.size_of_heap)
    (hsz : s.size_of_heap < max_size) (hr : s.size_of_heap < 2 * i + 1) :
    shift_down s i = .error (.out_of_bounds (-1)) :=
  shift_down_rec_missing_child _ s i h1 hi h0 hsz hr

/-! ## Navigation arithmetic -/

theorem parent_eq_half (i : Int) (h : 1 < i) : parent i = i / 2 := by
  have h1 : i ≠ 1 := by omega
  simp [parent, h1, Int.tdiv_eq_ediv (show (0 : Int) ≤ i by omega) (show (0 : Int) ≤ 2 by omega)]

/-! ## Swapping two valid positions keeps the multiset of elements -/

theorem update_update_eq_comp_swap (f : Int → Int) (i j : Int) :
    Function.update (Function.update f i (f j)) j (f i) = f ∘ (Equiv.swap i j) := by
  funext x
  by_cases hxj : x = j
  · subst hxj; simp
  · by_cases hxi : x = i
    · subst hxi; simp [Function.update_noteq hxj]
    · simp [Function.update_noteq hxj, Function.update_noteq hxi,
        Equiv.swap_apply_of_ne_of_ne hxi hxj]

theorem map_swap_Icc (f : Int → Int) (n i j : Int)
    (hi : 1 ≤ i ∧ i ≤ n) (hj : 1 ≤ j ∧ j ≤ n) :
    (Finset.Icc 1 n).val.map (Function.update (Function.update f i (f j)) j (f i)) =
      (Finset.Icc 1 n).val.map f := by
  rw [update_update_eq_comp_swap, ← Multiset.map_map]
  congr 1
  have hperm : (Finset.Icc 1 n).map (Equiv.swap i j).toEmbedding = Finset.Icc 1 n := by
    apply Finset.map_perm
    intro a ha
    simp only [Set.mem_setOf_eq] at ha
    have : a = i ∨ a = j := by
      by_contra hcon
      push_neg at hcon
      exact ha (Equiv.swap_apply_of_ne_of_ne hcon.1 hcon.2)
    rcases this with h | h <;> subst h <;> simp [Finset.mem_Icc] <;> omega
  have := congrArg Finset.val hperm
  simpa [Finset.map_val] using this

/-! ## shift_up: it returns, and keeps size and elements -/

theorem shift_up_loop_ok (fuel : Nat) : ∀ (s : State) (i : Int),
    i.toNat < fuel → i < max_size → i ≤ s.size_of_heap →
    ∃ s', shift_up_loop fuel s i = .ok s' ∧ s'.size_of_heap = s.size_of_heap ∧
      elements s' = elements s := by
  induction fuel with
  | zero => intro s i h; omega
  | succ fuel ih =>
    intro s i hfuel hi hsz
    by_cases h1 : i > 1
    · have hp : parent i = i / 2 := parent_eq_half i h1
      have hin : in_store i := ⟨by omega, hi⟩
      have hinp : in_store (i / 2) := ⟨by omega, by omega⟩
      by_cases hlt : s.heap (i / 2) < s.heap i
      · obtain ⟨s', hs', hsize, hel⟩ := ih
          ⟨Function.update (Function.update s.heap i (s.heap (i / 2))) (i / 2) (s.heap i),
            s.size_of_heap⟩ (i / 2) (by omega) (by omega) (by simp; omega)
        refine ⟨s', ?_, ?_, ?_⟩
        · simp [shift_up_loop, h1, hp, read_ok, hin, hinp, hlt, swap_ok, hs', bind,
            Except.bind]
        · simpa using hsize
        · rw [hel]
          exact map_swap_Icc s.heap s.size_of_heap i (i / 2) ⟨by omega, hsz⟩
            ⟨by omega, by omega⟩
      · exact ⟨s, by simp [shift_up_loop, h1, hp, read_ok, hin, hinp, hlt, bind,
          Except.bind, pure, Except.pure], rfl, rfl⟩
    · exact ⟨s, by simp [shift_up_loop, h1, pure, Except.pure], rfl, rfl⟩

theorem shift_up_ok (s : State) (i : Int) (hi : i < max_size) (hsz : i ≤ s.size_of_heap) :
    ∃ s', shift_up s i = .ok s' ∧ s'.size_of_heap = s.size_of_heap ∧
      elements s' = elements s :=
  shift_up_loop_ok (i.toNat + 1) s i (by omega) hi hsz

/-! ## shift_up: it repairs a heap that is wrong only at the start position -/

theorem swapped_apply (f : Int → Int) (i p x : Int) (hne : i ≠ p) :
    Function.update (Function.update f i (f p)) p (f i) x =
      if x = p then f i else if x = i then f p else f x := by
  by_cases hxp : x = p
  · subst hxp; simp
  · by_cases hxi : x = i
    · subst hxi; simp [Function.update_noteq hxp, hxp]
    · simp [Function.update_noteq hxp, Function.update_noteq hxi, hxp, hxi]

theorem shift_up_loop_repairs (fuel : Nat) : ∀ (s : State) (i : Int),
    1 ≤ i → i < max_size → i ≤ s.size_of_heap →
    (∀ j : Int, 1 < j → j ≤ s.size_of_heap → j ≠ i → s.heap j ≤ s.heap (j / 2)) →
    (1 < i → ∀ c : Int, 1 < c → c ≤ s.size_of_heap → c / 2 = i →
      s.heap c ≤ s.heap (i / 2)) →
    ∀ s', shift_up_loop fuel s i = .ok s' →
      ∀ j : Int, 1 < j → j ≤ s.size_of_heap → s'.heap j ≤ s'.heap (j / 2) := by
  induction fuel with
  | zero => intro s i _ _ _ _ _ s' h; simp [shift_up_loop] at h
  | succ fuel ih =>
    intro s i hpos hi hsz H1 H2 s' hrun
    by_cases h1 : i > 1
    · have hp : parent i = i / 2 := parent_eq_half i h1
      have hin : in_store i := ⟨by omega, hi⟩
      have hinp : in_store (i / 2) := ⟨by omega, by omega⟩
      by_cases hlt : s.heap (i / 2) < s.heap i
      · have hne : i ≠ i / 2 := by omega
        simp only [shift_up_loop, h1, hp, read_ok, hin, hinp, hlt, swap_ok, bind,
          Except.bind, if_true] at hrun
        refine ih ⟨Function.update (Function.update s.heap i (s.heap (i / 2))) (i / 2)
          (s.heap i), s.size_of_heap⟩ (i / 2) (by omega) (by omega) (by simp only; omega)
          ?_ ?_ s' hrun
        · intro j hj1 hjn hjp
          simp only [swapped_apply _ _ _ _ hne]
          simp only at hjn
          by_cases hji : j = i
          · subst hji
            simp only [if_pos, if_neg hjp, if_true]
            exact le_of_lt hlt
          · have hH := H1 j hj1 hjn hji
            simp only [if_neg hjp, if_neg hji]
            by_cases hq : j / 2 = i / 2
            · simp only [hq, if_true]
              rw [hq] at hH
              exact le_trans hH (le_of_lt hlt)
            · by_cases hq2 : j / 2 = i
              · simp only [hq2, if_neg hne, if_true]
                exact H2 h1 j hj1 hjn hq2
              · simp only [if_neg hq, if_neg hq2]
                exact hH
        · intro hp1 c hc1 hcn hcp
          simp only [swapped_apply _ _ _ _ hne]
          simp only at hcn
          have hcne : c ≠ i / 2 := by omega
          have hq1 : i / 2 / 2 ≠ i / 2 := by omega
          have hq2 : i / 2 / 2 ≠ i := by omega
          have hpar := H1 (i / 2) hp1 (by omega) (by omega)
          simp only [if_neg hcne, if_neg hq1, if_neg hq2]
          by_cases hci : c = i
          · simp only [hci, if_true]
            exact hpar
          · simp only [if_neg hci]
            have hH := H1 c hc1 hcn hci
            rw [hcp] at hH
            exact le_trans hH hpar
      · simp only [shift_up_loop, h1, hp, read_ok, hin, hinp, hlt, bind, Except.bind,
          if_true, if_false, pure, Except.pure] at hrun
        cases hrun
        intro j hj1 hjn
        by_cases hji : j = i
        · subst hji; omega
        · exact H1 j hj1 hjn hji
    · simp only [shift_up_loop, h1, if_false, pure, Except.pure] at hrun
      cases hrun
      intro j hj1 hjn
      exact H1 j hj1 hjn (by omega)

/-! ## Appending one slot to the valid range -/

theorem elements_append (f : Int → Int) (n v : Int) (h0 : 0 ≤ n) :
    (Finset.Icc 1 (n + 1)).val.map (Function.update f (n + 1) v) =
      v ::ₘ (Finset.Icc 1 n).val.map f := by
  have hIcc : Finset.Icc 1 (n + 1) = Insert.insert (n + 1) (Finset.Icc 1 n) := by
    ext x; simp [Finset.mem_Icc]; omega
  have hnot : n + 1 ∉ Finset.Icc 1 n := by simp [Finset.mem_Icc]
  rw [hIcc, Finset.insert_val_of_not_mem hnot, Multiset.map_cons]
  simp only [Function.update_same]
  congr 1
  apply Multiset.map_congr rfl
  intro x hx
  have hx' : x ∈ Finset.Icc 1 n := hx
  have : x ≠ n + 1 := by
    simp only [Finset.mem_Icc] at hx'; omega
  simp [Function.update_noteq this]

theorem insert_spec (s : State) (v : Int) (h0 : 0 ≤ s.size_of_heap)
    (hslot : in_store (s.size_of_heap + 1)) :
    ∃ s', insert s v = .ok s' ∧ s'.size_of_heap = s.size_of_heap + 1 ∧
      elements s' = v ::ₘ elements s ∧ (max_heap s → max_heap s') := by
  have hne : s.size_of_heap ≠ max_size := by
    have := hslot.2; omega
  obtain ⟨s', hs', hsize, hel⟩ := shift_up_ok
    ⟨Function.update s.heap (s.size_of_heap + 1) v, s.size_of_heap + 1⟩
    (s.size_of_heap + 1) hslot.2 (le_refl _)
  refine ⟨s', ?_, hsize, ?_, ?_⟩
  · simp [insert, hne, write_ok, hslot, hs', bind, Except.bind]
  · rw [hel]
    exact elements_append s.heap s.size_of_heap v h0
  · intro hinv j hj1 hjn
    rw [parent_eq_half j hj1]
    rw [hsize] at hjn
    refine shift_up_loop_repairs _
      ⟨Function.update s.heap (s.size_of_heap + 1) v, s.size_of_heap + 1⟩
      (s.size_of_heap + 1) (by omega) hslot.2 (le_refl _) ?_ ?_ s' hs' j hj1 hjn
    · intro k hk1 hkn hkne
      simp only at hkn
      have hk2 : k / 2 ≠ s.size_of_heap + 1 := by omega
      simp only [Function.update_noteq hkne, Function.update_noteq hk2]
      have := hinv k hk1 (by omega)
      rwa [parent_eq_half k hk1] at this
    · intro _ c hc1 hcn hcp
      simp only at hcn
      omega

/-! ## The root of a max-heap dominates every valid position -/

theorem le_root_aux (s : State) (hinv : max_heap s) (n : Nat) :
    ∀ i : Int, 1 ≤ i → i ≤ n → i ≤ s.size_of_heap → s.heap i ≤ s.heap 1 := by
  induction n with
  | zero => intro i h1 h2; omega
  | succ n ih =>
    intro i h1 h2 hsz
    by_cases hi : i = 1
    · subst hi; exact le_refl _
    · have hgt : 1 < i := by omega
      have hstep := hinv i hgt hsz
      rw [parent_eq_half i hgt] at hstep
      have hrec := ih (i / 2) (by omega) (by push_cast at h2 ⊢; omega) (by omega)
      exact le_trans hstep hrec

theorem le_root (s : State) (hinv : max_heap s) (i : Int) (h1 : 1 ≤ i)
    (hsz : i ≤ s.size_of_heap) : s.heap i ≤ s.heap 1 :=
  le_root_aux s hinv i.toNat i h1 (by omega) hsz

/-! ## shift_down on a position with two children -/

theorem largest_of_three_cases (f : Int → Int) (i : Int) :
    largest_of_three f i = i ∨ largest_of_three f i = 2 * i ∨
      largest_of_three f i = 2 * i + 1 := by
  unfold largest_of_three
  simp only []
  split_ifs <;> simp

theorem shift_down_rec_two_children (fuel : Nat) (s : State) (i : Int)
    (h1 : 1 ≤ i) (hsz : s.size_of_heap < max_size) (hr : 2 * i + 1 ≤ s.size_of_heap) :
    shift_down_rec (fuel + 1) s i =
      if i = largest_of_three s.heap i then .ok s
      else shift_down_rec fuel
        ⟨Function.update (Function.update s.heap i (s.heap (largest_of_three s.heap i)))
          (largest_of_three s.heap i) (s.heap i), s.size_of_heap⟩
        (largest_of_three s.heap i) := by
  have hl1 : left_child s i = 2 * i := by
    have : ¬ 2 * i > s.size_of_heap := by omega
    simp [left_child, this]
  have hr1 : right_child s i = 2 * i + 1 := by
    have : ¬ 2 * i + 1 > s.size_of_heap := by omega
    simp [right_child, this]
  have hin : in_store i := ⟨by omega, by omega⟩
  have hinl : in_store (2 * i) := ⟨by omega, by omega⟩
  have hinr : in_store (2 * i + 1) := ⟨by omega, by omega⟩
  have hlle : 2 * i ≤ s.size_of_heap := by omega
  have hb1 : bigger_child s (2 * i) i =
      .ok (if s.heap (2 * i) > s.heap i then 2 * i else i) := by
    simp [bigger_child, hlle, read_ok, hin, hinl, bind, Except.bind, pure, Except.pure]
  have hin1 : in_store (if s.heap (2 * i) > s.heap i then 2 * i else i) := by
    split_ifs <;> assumption
  have hb2 : bigger_child s (2 * i + 1) (if s.heap (2 * i) > s.heap i then 2 * i else i) =
      .ok (largest_of_three s.heap i) := by
    simp [bigger_child, hr, read_ok, hinr, hin1, bind, Except.bind, pure, Except.pure,
      largest_of_three]
  have hinm : in_store (largest_of_three s.heap i) := by
    rcases largest_of_three_cases s.heap i with h | h | h <;> rw [h] <;> assumption
  by_cases hm : i = largest_of_three s.heap i
  · simp [shift_down_rec, hl1, hr1, hb1, hb2, bind, Except.bind, pure, Except.pure, ← hm]
  · simp [shift_down_rec, hl1, hr1, hb1, hb2, bind, Except.bind, hm, swap_ok, hin, hinm]

/-! ## shift_down: either it reads `heap[-1]`, or it returns with the same size -/

theorem shift_down_rec_cases (fuel : Nat) : ∀ (s : State) (i : Int),
    1 ≤ i → i < max_size → 0 ≤ s.size_of_heap → s.size_of_heap < max_size →
    (s.size_of_heap - i).toNat < fuel →
    shift_down_rec fuel s i = .error (.out_of_bounds (-1)) ∨
      ∃ s', shift_down_rec fuel s i = .ok s' ∧ s'.size_of_heap = s.size_of_heap := by
  induction fuel with
  | zero => intro s i _ _ _ _ h; omega
  | succ fuel ih =>
    intro s i h1 hi h0 hsz hfuel
    by_cases hr : s.size_of_heap < 2 * i + 1
    · exact Or.inl (shift_down_rec_missing_child fuel s i h1 hi h0 hsz hr)
    · rw [shift_down_rec_two_children fuel s i h1 hsz (by omega)]
      by_cases hm : i = largest_of_three s.heap i
      · right; exact ⟨s, by simp [← hm], rfl⟩
      · have hcases := largest_of_three_cases s.heap i
        simp only [hm, if_false]
        have := ih ⟨Function.update (Function.update s.heap i
            (s.heap (largest_of_three s.heap i))) (largest_of_three s.heap i) (s.heap i),
          s.size_of_heap⟩ (largest_of_three s.heap i) (by omega) (by omega) h0 hsz
          (by simp only; omega)
        simpa using this

theorem shift_down_cases (s : State) (i : Int)
    (h1 : 1 ≤ i) (hi : i < max_size) (h0 : 0 ≤ s.size_of_heap)
    (hsz : s.size_of_heap < max_size) :
    shift_down s i = .error (.out_of_bounds (-1)) ∨
      ∃ s', shift_down s i = .ok s' ∧ s'.size_of_heap = s.size_of_heap :=
  shift_down_rec_cases _ s i h1 hi h0 hsz (by omega)

/-! ## extract_max: either it reads `heap[-1]`, or it returns with one element less -/

theorem in_store_one : in_store 1 := by
  simp [in_store, max_size]

theorem extract_max_eq (s : State) (h1 : 1 ≤ s.size_of_heap)
    (hsz : s.size_of_heap < max_size) :
    extract_max s =
      (shift_down ⟨Function.update s.heap 1 (s.heap s.size_of_heap), s.size_of_heap - 1⟩ 1
        >>= fun s3 => pure (s.heap 1, s3)) := by
  have hin : in_store s.size_of_heap := ⟨by omega, hsz⟩
  simp [extract_max, read_ok, write_ok, in_store_one, hin, bind, Except.bind]

theorem extract_max_cases (s : State) (h1 : 1 ≤ s.size_of_heap)
    (hsz : s.size_of_heap < max_size) :
    extract_max s = .error (.out_of_bounds (-1)) ∨
      ∃ s', extract_max s = .ok (s.heap 1, s') ∧ s'.size_of_heap = s.size_of_heap - 1 := by
  rw [extract_max_eq s h1 hsz]
  rcases shift_down_cases
    ⟨Function.update s.heap 1 (s.heap s.size_of_heap), s.size_of_heap - 1⟩ 1 (le_refl _)
    in_store_one.2 (by simp only; omega) (by simp only; omega) with h | ⟨s', h, hsize⟩
  · left; rw [h]; rfl
  · right; exact ⟨s', by rw [h]; rfl, by simpa using hsize⟩

theorem extract_max_small (s : State) (h1 : 1 ≤ s.size_of_heap)
    (h3 : s.size_of_heap ≤ 3) : extract_max s = .error (.out_of_bounds (-1)) := by
  have hsz : s.size_of_heap < max_size := by simp only [max_size]; omega
  rw [extract_max_eq s h1 hsz,
    shift_down_missing_child _ 1 (le_refl _) in_store_one.2 (by simp only; omega)
      (by simp only; omega) (by simp only; omega)]
  rfl

/-! ## Runs of several inserts and several extractions -/

theorem insert_all_ok (vs : List Int) : ∀ s : State, 0 ≤ s.size_of_heap →
    s.size_of_heap + vs.length < max_size →
    ∃ s', insert_all s vs = .ok s' ∧ s'.size_of_heap = s.size_of_heap + vs.length := by
  induction vs with
  | nil => intro s _ _; exact ⟨s, rfl, by simp⟩
  | cons v vs ih =>
    intro s h0 hlen
    simp only [List.length_cons, Nat.cast_add, Nat.cast_one] at hlen
    obtain ⟨s1, hs1, hsize1, _, _⟩ := insert_spec s v h0 ⟨by omega, by omega⟩
    obtain ⟨s', hs', hsize'⟩ := ih s1 (by omega) (by omega)
    refine ⟨s', ?_, ?_⟩
    · simp [insert_all, hs1, hs', bind, Except.bind]
    · simp only [List.length_cons, Nat.cast_add, Nat.cast_one]; omega

theorem extract_all_faults (k : Nat) : ∀ s : State, 1 ≤ k → s.size_of_heap = k →
    s.size_of_heap < max_size →
    extract_all k s = .error (.out_of_bounds (-1)) := by
  induction k with
  | zero => intro s h; omega
  | succ k ih =>
    intro s _ hk hsz
    rcases extract_max_cases s (by omega) hsz with h | ⟨s', h, hsize⟩
    · simp [extract_all, h, bind, Except.bind]
    · by_cases hsmall : k = 0
      · have := extract_max_small s (by omega) (by omega)
        rw [this] at h; cases h
      · have hrec := ih s' (by omega) (by push_cast at hk; omega) (by omega)
        simp [extract_all, h, hrec, bind, Except.bind]

/-! ## remove and update on top of the lemmas above -/

theorem remove_small (s : State) (i : Int) (h1 : 1 ≤ i) (hi : i ≤ s.size_of_heap)
    (h3 : s.size_of_heap ≤ 3) : remove s i = .error (.out_of_bounds (-1)) := by
  have hin : in_store i := ⟨by omega, by simp only [max_size]; omega⟩
  obtain ⟨s2, hs2, hsize, _⟩ := shift_up_ok
    ⟨Function.update s.heap i positive_infinity, s.size_of_heap⟩ i hin.2 hi
  have hfault := extract_max_small s2 (by rw [hsize]; simp only; omega)
    (by rw [hsize]; exact h3)
  simp [remove, write_ok, hin, hs2, hfault, bind, Except.bind]

theorem update_downward_missing_child (s : State) (i v : Int) (h1 : 1 ≤ i)
    (hi : i ≤ s.size_of_heap) (hsz : s.size_of_heap < max_size)
    (hr : s.size_of_heap < 2 * i + 1) (hv : v ≤ s.heap i) :
    update s i v = .error (.out_of_bounds (-1)) := by
  have hin : in_store i := ⟨by omega, by omega⟩
  have hnot : ¬ s.heap i < v := by omega
  have hfault := shift_down_missing_child ⟨Function.update s.heap i v, s.size_of_heap⟩ i h1
    hin.2 (by simp only; omega) hsz hr
  simp [update, read_ok, write_ok, hin, hnot, hfault, bind, Except.bind]

theorem build_heap_faults (s : State) (n : Int) (h1 : 1 ≤ n) (hn : n < max_size) :
    build_heap s n = .error (.out_of_bounds (-1)) := by
  obtain ⟨k, hk⟩ : ∃ k : Nat, (half_up n).toNat = k + 1 :=
    ⟨(half_up n).toNat - 1, by unfold half_up; omega⟩
  have hpos : ((k : Int) + 1) = half_up n := by
    have : (0 : Int) ≤ half_up n := by unfold half_up; omega
    have h2 := Int.toNat_of_nonneg this
    rw [hk] at h2
    push_cast at h2
    exact h2
  have hfault := shift_down_missing_child ⟨s.heap, n⟩ ((k : Int) + 1) (by omega)
    (by rw [hpos]; unfold half_up; omega) (by simp only; omega) hn
    (by rw [hpos]; unfold half_up; simp only; omega)
  simp [build_heap, hk, build_heap_loop, hfault, bind, Except.bind]

theorem build_heap_zero (s : State) : build_heap s 0 = .ok ⟨s.heap, 0⟩ := by
  rfl

theorem heap_sort_zero (s : State) : heap_sort s 0 = .ok ⟨s.heap, 0⟩ := by
  rfl

/-! ## extract_max without elements -/

theorem in_store_zero : in_store 0 := by
  simp [in_store, max_size]

theorem extract_max_empty_eq (s : State) (h0 : s.size_of_heap = 0) :
    extract_max s =
      (shift_down ⟨Function.update s.heap 1 (s.heap 0), -1⟩ 1
        >>= fun s3 => pure (s.heap 1, s3)) := by
  simp [extract_max, h0, read_ok, write_ok, in_store_one, in_store_zero, bind, Except.bind]

theorem build_heap_faults_any (s : State) (n : Int) (h1 : 1 ≤ n) :
    ∃ k, ¬ in_store k ∧ build_heap s n = .error (.out_of_bounds k) := by
  by_cases hn : n < max_size
  · exact ⟨-1, not_in_store_neg_one, build_heap_faults s n h1 hn⟩
  · obtain ⟨k, hk⟩ : ∃ k : Nat, (half_up n).toNat = k + 1 :=
      ⟨(half_up n).toNat - 1, by unfold half_up; omega⟩
    have hpos : ((k : Int) + 1) = half_up n := by
      have : (0 : Int) ≤ half_up n := by unfold half_up; omega
      have h2 := Int.toNat_of_nonneg this
      rw [hk] at h2
      push_cast at h2
      exact h2
    rcases Int.emod_two_eq_zero_or_one n with hev | hodd
    · have hl : left_child ⟨s.heap, n⟩ ((k : Int) + 1) = n := by
        have h2 : 2 * ((k : Int) + 1) = n := by rw [hpos]; unfold half_up; omega
        simp [left_child, h2]
      have hnot : ¬ in_store n := by simp only [in_store]; omega
      have hb : bigger_child ⟨s.heap, n⟩ n ((k : Int) + 1) = .error (.out_of_bounds n) := by
        simp [bigger_child, read_fault, hnot, bind, Except.bind]
      refine ⟨n, hnot, ?_⟩
      simp [build_heap, hk, build_heap_loop, shift_down, shift_down_rec, hl, hb, bind,
        Except.bind]
    · have hl : left_child ⟨s.heap, n⟩ ((k : Int) + 1) = -1 := by
        have h2 : 2 * ((k : Int) + 1) > n := by rw [hpos]; unfold half_up; omega
        simp [left_child, h2]
      have hb := bigger_child_neg_one ⟨s.heap, n⟩ ((k : Int) + 1) (by simp only; omega)
      refine ⟨-1, not_in_store_neg_one, ?_⟩
      simp [build_heap, hk, build_heap_loop, shift_down, shift_down_rec, hl, hb, bind,
        Except.bind]

/-! ## shift_up changes positions on the path to the root only -/

theorem shift_up_loop_frame (fuel : Nat) : ∀ (s : State) (i : Int),
    1 ≤ i → i < max_size →
    ∀ s', shift_up_loop fuel s i = .ok s' →
      ∀ p : Int, p ∉ path_to_root fuel i → s'.heap p = s.heap p := by
  induction fuel with
  | zero => intro s i _ _ s' h; simp [shift_up_loop] at h
  | succ fuel ih =>
    intro s i hpos hi s' hrun p hp
    simp only [path_to_root, hpos, if_true, List.mem_cons, not_or] at hp
    by_cases h1 : i > 1
    · have hpar : parent i = i / 2 := parent_eq_half i h1
      have hin : in_store i := ⟨by omega, hi⟩
      have hinp : in_store (i / 2) := ⟨by omega, by omega⟩
      by_cases hlt : s.heap (i / 2) < s.heap i
      · have hne : i ≠ i / 2 := by omega
        simp only [shift_up_loop, h1, hpar, read_ok, hin, hinp, hlt, swap_ok, bind,
          Except.bind, if_true] at hrun
        rw [hpar] at hp
        have hpp : p ≠ i / 2 := by
          cases fuel with
          | zero => simp [shift_up_loop] at hrun
          | succ f =>
            have h2 : (1 : Int) ≤ i / 2 := by omega
            have := hp.2
            simp only [path_to_root, h2, if_true, List.mem_cons, not_or] at this
            exact this.1
        have hrec := ih ⟨Function.update (Function.update s.heap i (s.heap (i / 2)))
          (i / 2) (s.heap i), s.size_of_heap⟩ (i / 2) (by omega) (by omega) s' hrun p hp.2
        rw [hrec]
        simp only [swapped_apply _ _ _ _ hne, if_neg hpp, if_neg hp.1]
      · simp only [shift_up_loop, h1, hpar, read_ok, hin, hinp, hlt, bind, Except.bind,
          if_true, if_false, pure, Except.pure] at hrun
        cases hrun; rfl
    · simp only [shift_up_loop, h1, if_false, pure, Except.pure] at hrun
      cases hrun; rfl

/-! ## shift_down: the recursion stays within the height of the tree -/

/-- With room for `k` recursive calls, where `size_of_heap < i * 2^(k+1)`, the run of
`shift_down(i)` never needs a further call: it returns, or it stops at the read of
`heap[-1]`. Every recursive call is made on `2*i` or `2*i+1`, both at most
`size_of_heap`. -/
theorem shift_down_rec_within_height (k : Nat) : ∀ (s : State) (i : Int),
    1 ≤ i → i < max_size → 0 ≤ s.size_of_heap → s.size_of_heap < max_size →
    s.size_of_heap < i * 2 ^ (k + 1) →
    shift_down_rec (k + 1) s i = .error (.out_of_bounds (-1)) ∨
      ∃ s', shift_down_rec (k + 1) s i = .ok s' ∧ s'.size_of_heap = s.size_of_heap := by
  induction k with
  | zero =>
    intro s i h1 hi h0 hsz hlt
    exact Or.inl (shift_down_rec_missing_child 0 s i h1 hi h0 hsz (by omega))
  | succ k ih =>
    intro s i h1 hi h0 hsz hlt
    by_cases hr : s.size_of_heap < 2 * i + 1
    · exact Or.inl (shift_down_rec_missing_child _ s i h1 hi h0 hsz hr)
    · rw [shift_down_rec_two_children (k + 1) s i h1 hsz (by omega)]
      by_cases hm : i = largest_of_three s.heap i
      · right; exact ⟨s, by simp [← hm], rfl⟩
      · have hcases := largest_of_three_cases s.heap i
        have hge : 2 * i ≤ largest_of_three s.heap i := by omega
        simp only [hm, if_false]
        have hpow : (0 : Int) < 2 ^ (k + 1) := by positivity
        have hbound : s.size_of_heap < largest_of_three s.heap i * 2 ^ (k + 1) := by
          have h2 : i * 2 ^ (k + 1 + 1) = 2 * i * 2 ^ (k + 1) := by ring
          have h3 : 2 * i * 2 ^ (k + 1) ≤ largest_of_three s.heap i * 2 ^ (k + 1) :=
            mul_le_mul_of_nonneg_right hge (le_of_lt hpow)
          omega
        have := ih ⟨Function.update (Function.update s.heap i
            (s.heap (largest_of_three s.heap i))) (largest_of_three s.heap i) (s.heap i),
          s.size_of_heap⟩ (largest_of_three s.heap i) (by omega) (by omega) h0 hsz hbound
        simpa using this

/-- From the root, `floor(log2(size_of_heap))` recursive calls are enough. -/
theorem shift_down_rec_root_within_log (s : State) (h1 : 1 ≤ s.size_of_heap)
    (hsz : s.size_of_heap < max_size) :
    shift_down_rec (Nat.log 2 s.size_of_heap.toNat + 1) s 1 = .error (.out_of_bounds (-1)) ∨
      ∃ s', shift_down_rec (Nat.log 2 s.size_of_heap.toNat + 1) s 1 = .ok s' ∧
        s'.size_of_heap = s.size_of_heap := by
  apply shift_down_rec_within_height _ s 1 (le_refl _) in_store_one.2 (by omega) hsz
  have hlog := Nat.lt_pow_succ_log_self (by decide : 1 < 2) s.size_of_heap.toNat
  have hcast : s.size_of_heap = (s.size_of_heap.toNat : Int) := by omega
  rw [one_mul, hcast]
  exact_mod_cast hlog

/-! ## shift_down does not look at positions beyond size_of_heap -/

theorem largest_of_three_update_beyond (f : Int → Int) (i p v : Int) (h1 : 1 ≤ i)
    (hp : 2 * i + 1 < p) :
    largest_of_three (Function.update f p v) i = largest_of_three f i := by
  have e1 : i ≠ p := by omega
  have e2 : 2 * i ≠ p := by omega
  have e3 : 2 * i + 1 ≠ p := by omega
  generalize hg : Function.update f p v = g
  have g1 : g i = f i := by rw [← hg, Function.update_noteq e1]
  have g2 : g (2 * i) = f (2 * i) := by rw [← hg, Function.update_noteq e2]
  have g3 : g (2 * i + 1) = f (2 * i + 1) := by rw [← hg, Function.update_noteq e3]
  unfold largest_of_three
  simp only [g1, g2, g3]
  by_cases h : f (2 * i) > f i
  · simp only [h, if_true, g2]
  · simp only [h, if_false, g1]

theorem update_swapped_beyond (f : Int → Int) (i m p v x y : Int) (hpi : p ≠ i)
    (hpm : p ≠ m) :
    Function.update (Function.update (Function.update f p v) i x) m y =
      Function.update (Function.update (Function.update f i x) m y) p v := by
  rw [Function.update_comm hpi, Function.update_comm hpm]

theorem shift_down_rec_beyond (fuel : Nat) : ∀ (f : Int → Int) (n i p v : Int),
    1 ≤ i → i < max_size → 0 ≤ n → n < max_size → n < p →
    shift_down_rec fuel ⟨Function.update f p v, n⟩ i =
      (shift_down_rec fuel ⟨f, n⟩ i).map
        (fun t => ⟨Function.update t.heap p v, t.size_of_heap⟩) := by
  induction fuel with
  | zero => intro f n i p v _ _ _ _ _; simp [shift_down_rec, Except.map]
  | succ fuel ih =>
    intro f n i p v h1 hi h0 hn hp
    by_cases hr : n < 2 * i + 1
    · rw [shift_down_rec_missing_child fuel ⟨Function.update f p v, n⟩ i h1 hi h0 hn hr,
        shift_down_rec_missing_child fuel ⟨f, n⟩ i h1 hi h0 hn hr]
      rfl
    · have hr' : 2 * i + 1 ≤ n := by omega
      rw [shift_down_rec_two_children fuel ⟨Function.update f p v, n⟩ i h1 hn hr',
        shift_down_rec_two_children fuel ⟨f, n⟩ i h1 hn hr']
      dsimp only
      rw [largest_of_three_update_beyond f i p v h1 (by omega)]
      have hcases := largest_of_three_cases f i
      by_cases hm : i = largest_of_three f i
      · simp [← hm, Except.map]
      · simp only [hm, if_false]
        have hpi : p ≠ i := by omega
        have hpm : p ≠ largest_of_three f i := by omega
        rw [Function.update_noteq hpi.symm, Function.update_noteq hpm.symm,
          update_swapped_beyond f i _ p v _ _ hpi hpm]
        exact ih _ n (largest_of_three f i) p v (by omega) (by omega) h0 hn hp

theorem extract_max_beyond (f : Int → Int) (n p v : Int) (h1 : 1 ≤ n)
    (hn : n < max_size) (hp : n < p) :
    extract_max ⟨Function.update f p v, n⟩ =
      (extract_max ⟨f, n⟩).map
        (fun r => (r.1, ⟨Function.update r.2.heap p v, r.2.size_of_heap⟩)) := by
  have e1 : (1 : Int) ≠ p := by omega
  have en : n ≠ p := by omega
  rw [extract_max_eq ⟨Function.update f p v, n⟩ h1 hn, extract_max_eq ⟨f, n⟩ h1 hn]
  dsimp only
  rw [Function.update_noteq e1, Function.update_noteq en,
    Function.update_comm e1.symm]
  unfold shift_down
  dsimp only
  rw [shift_down_rec_beyond _ (Function.update f 1 (f n)) (n - 1) 1 p v (le_refl _)
    in_store_one.2 (by omega) (by omega) (by omega)]
  cases shift_down_rec ((n - 1).toNat + 2) ⟨Function.update f 1 (f n), n - 1⟩ 1 <;> rfl

theorem extract_all_shape (k : Nat) : ∀ (s : State) (xs : List Int) (t : State),
    (k : Int) ≤ s.size_of_heap → s.size_of_heap < max_size →
    extract_all k s = .ok (xs, t) →
    xs.length = k ∧ t.size_of_heap = s.size_of_heap - k := by
  induction k with
  | zero =>
    intro s xs t _ _ h
    simp only [extract_all, pure, Except.pure, Except.ok.injEq, Prod.mk.injEq] at h
    obtain ⟨h1, h2⟩ := h
    subst h1; subst h2; simp
  | succ k ih =>
    intro s xs t hk hsz h
    push_cast at hk
    rcases extract_max_cases s (by omega) hsz with he | ⟨s', he, hsize⟩
    · simp [extract_all, he, bind, Except.bind] at h
    · simp only [extract_all, he, bind, Except.bind] at h
      cases hrest : extract_all k s' with
      | error e => simp [hrest] at h
      | ok rest =>
        obtain ⟨ys, u⟩ := rest
        simp only [hrest, pure, Except.pure, Except.ok.injEq, Prod.mk.injEq] at h
        obtain ⟨h1, h2⟩ := h
        have := ih s' ys u (by omega) (by omega) hrest
        subst h1; subst h2
        simp only [List.length_cons]
        push_cast
        omega

theorem extract_all_beyond (k : Nat) : ∀ (f : Int → Int) (n p v : Int),
    (k : Int) ≤ n → n < max_size → n < p →
    extract_all k ⟨Function.update f p v, n⟩ =
      (extract_all k ⟨f, n⟩).map
        (fun r => (r.1, ⟨Function.update r.2.heap p v, r.2.size_of_heap⟩)) := by
  induction k with
  | zero => intro f n p v _ _ _; rfl
  | succ k ih =>
    intro f n p v hk hn hp
    push_cast at hk
    simp only [extract_all, bind, Except.bind]
    rw [extract_max_beyond f n p v (by omega) hn hp]
    rcases extract_max_cases ⟨f, n⟩ (by simp only; omega) hn with he | ⟨s', he, hsize⟩
    · simp [he, Except.map]
    · obtain ⟨g, m⟩ := s'
      simp only at hsize
      subst hsize
      simp only [he, Except.map]
      rw [ih g (n - 1) p v (by omega) (by omega) (by omega)]
      cases extract_all k ⟨g, n - 1⟩ <;> rfl

/-! ## heap_sort's loop is extract_max with the value put back behind the heap -/

theorem stored_back_nil (f : Int → Int) (m : Int) : stored_back f m [] = f := by
  funext p
  have : ¬ (m < p ∧ p ≤ m + (([] : List Int).length : Int)) := by
    simp only [List.length_nil, Nat.cast_zero]; omega
  simp only [stored_back, this, if_false]

theorem stored_back_cons (h : Int → Int) (m x : Int) (xs : List Int) :
    stored_back (Function.update h (m + xs.length + 1) x) m xs =
      stored_back h m (x :: xs) := by
  funext p
  simp only [stored_back, List.length_cons, Nat.cast_add, Nat.cast_one]
  by_cases hp : m < p ∧ p ≤ m + xs.length
  · have hp' : m < p ∧ p ≤ m + (xs.length + 1) := ⟨hp.1, by omega⟩
    have hidx : (m + ((xs.length : Int) + 1) - p).toNat = (m + xs.length - p).toNat + 1 := by
      omega
    simp only [hp, hp', if_true, and_self, hidx, List.getD_cons_succ]
  · by_cases hlast : p = m + xs.length + 1
    · subst hlast
      have c1 : ¬ (m < m + (xs.length : Int) + 1 ∧
          m + (xs.length : Int) + 1 ≤ m + (xs.length : Int)) := by omega
      have c2 : m < m + (xs.length : Int) + 1 ∧
          m + (xs.length : Int) + 1 ≤ m + ((xs.length : Int) + 1) := by omega
      have hidx : (m + ((xs.length : Int) + 1) - (m + xs.length + 1)).toNat = 0 := by omega
      rw [if_neg c1, if_pos c2, hidx, List.getD_cons_zero, Function.update_same]
    · have hp' : ¬ (m < p ∧ p ≤ m + ((xs.length : Int) + 1)) := by omega
      simp only [hp, hp', if_false, Function.update_noteq hlast]

theorem heap_sort_loop_eq_extract_all (k : Nat) : ∀ s : State,
    (k : Int) ≤ s.size_of_heap → s.size_of_heap < max_size →
    heap_sort_loop k s =
      (extract_all k s).map
        (fun r => ⟨stored_back r.2.heap r.2.size_of_heap r.1, r.2.size_of_heap⟩) := by
  induction k with
  | zero =>
    intro s _ _
    simp only [heap_sort_loop, extract_all, pure, Except.pure, Except.map, stored_back_nil]
  | succ k ih =>
    intro s hk hsz
    obtain ⟨f, n⟩ := s
    push_cast at hk
    simp only at hk hsz
    have h1 : 1 ≤ n := by omega
    have hinn : in_store n := ⟨by omega, hsz⟩
    have hloop : heap_sort_loop (k + 1) ⟨f, n⟩ =
        (shift_down ⟨Function.update (Function.update f 1 (f n)) n (f 1), n - 1⟩ 1
          >>= heap_sort_loop k) := by
      simp [heap_sort_loop, swap_ok, in_store_one, hinn, bind, Except.bind]
    have hframe : shift_down ⟨Function.update (Function.update f 1 (f n)) n (f 1), n - 1⟩ 1 =
        (shift_down ⟨Function.update f 1 (f n), n - 1⟩ 1).map
          (fun t => ⟨Function.update t.heap n (f 1), t.size_of_heap⟩) := by
      unfold shift_down
      exact shift_down_rec_beyond _ (Function.update f 1 (f n)) (n - 1) 1 n (f 1)
        (le_refl _) in_store_one.2 (by omega) (by omega) (by omega)
    rw [hloop, hframe]
    simp only [extract_all, bind, Except.bind]
    rw [extract_max_eq ⟨f, n⟩ h1 hsz]
    dsimp only
    rcases shift_down_cases ⟨Function.update f 1 (f n), n - 1⟩ 1 (le_refl _)
      in_store_one.2 (by simp only; omega) (by simp only; omega) with he | ⟨t, he, hsize⟩
    · simp [he, Except.map, bind, Except.bind]
    · obtain ⟨g, m⟩ := t
      simp only at hsize
      subst hsize
      simp only [he, Except.map, bind, Except.bind, pure, Except.pure]
      rw [ih ⟨Function.update g n (f 1), n - 1⟩ (by simp only; omega) (by simp only; omega),
        extract_all_beyond k g (n - 1) n (f 1) (by omega) (by omega) (by omega)]
      cases hrest : extract_all k ⟨g, n - 1⟩ with
      | error e => rfl
      | ok rest =>
        obtain ⟨xs, u⟩ := rest
        obtain ⟨hlen, husize⟩ := extract_all_shape k ⟨g, n - 1⟩ xs u (by simp only; omega)
          (by simp only; omega) hrest
        simp only [Except.map]
        have hpos : n = u.size_of_heap + xs.length + 1 := by
          simp only at husize; rw [husize, hlen]; omega
        rw [← stored_back_cons, ← hpos]

/-! ## The claims -/

/-- Claim C1 (heap_sort on the heap's own store sorts positions 1..n, n = 1
included): the code does not get that far. For every n from 1 up to the last slot
and every content, the first `shift_down` of `build_heap` is made on a position
without a right child, `right_child` (or `left_child`) answers -1, the guard
`-1<=size_of_heap` holds, and `heap[-1]` is read: the run leaves the vector. -/
theorem heap_sort_reads_out_of_bounds (s : State) (n : Int) (h1 : 1 ≤ n)
    (hn : n < max_size) : heap_sort s n = .error (.out_of_bounds (-1)) := by
  simp [heap_sort, build_heap_faults s n h1 hn, bind, Except.bind]

theorem heap_sort_reads_out_of_bounds_witness :
    (1 : Int) ≤ 1 ∧ (1 : Int) < max_size ∧
      heap_sort (State.of_list [-5] 1) 1 = .error (.out_of_bounds (-1)) :=
  ⟨by decide, by decide,
    heap_sort_reads_out_of_bounds (State.of_list [-5] 1) 1 (by decide) (by decide)⟩

/-- Claim C2 (the four operations keep the max-heap invariant): a heap of one
element satisfies the invariant, and from it `extract_max()`, `remove(1)` and
`update(1, v)` with the value already stored all reach `shift_down` on a leaf, which
reads `heap[-1]`; none of them ends in a state. -/
theorem one_element_heap_operations_read_out_of_bounds (s : State)
    (h : s.size_of_heap = 1) :
    max_heap s ∧ extract_max s = .error (.out_of_bounds (-1)) ∧
      remove s 1 = .error (.out_of_bounds (-1)) ∧
      update s 1 (s.heap 1) = .error (.out_of_bounds (-1)) := by
  refine ⟨?_, ?_, ?_, ?_⟩
  · intro i h1 h2; omega
  · exact extract_max_small s (by omega) (by omega)
  · exact remove_small s 1 (le_refl _) (by omega) (by omega)
  · exact update_downward_missing_child s 1 (s.heap 1) (le_refl _) (by omega)
      (by rw [h]; decide) (by omega) (le_refl _)

theorem one_element_heap_operations_read_out_of_bounds_witness :
    (State.of_list [-5] 1).size_of_heap = 1 ∧
      max_heap (State.of_list [-5] 1) ∧
      extract_max (State.of_list [-5] 1) = .error (.out_of_bounds (-1)) ∧
      remove (State.of_list [-5] 1) 1 = .error (.out_of_bounds (-1)) ∧
      update (State.of_list [-5] 1) 1 ((State.of_list [-5] 1).heap 1) =
        .error (.out_of_bounds (-1)) :=
  ⟨rfl, one_element_heap_operations_read_out_of_bounds (State.of_list [-5] 1) rfl⟩

/-- Claim C3 (inserting V and extracting |V| times returns V in descending order):
for every non-empty V that fits in the store, all inserts succeed and the run of
|V| calls of `extract_max` reads `heap[-1]` before it completes (at the latest when
three elements are left), so no sequence of values is returned. -/
theorem extraction_run_reads_out_of_bounds (V : List Int) (hne : V ≠ [])
    (hfit : (V.length : Int) < max_size) :
    (insert_all State.init V >>= extract_all V.length) = .error (.out_of_bounds (-1)) := by
  obtain ⟨s, hs, hsize⟩ := insert_all_ok V State.init (le_refl _)
    (by simpa [State.init] using hfit)
  have hlen : 1 ≤ V.length := List.length_pos.mpr hne
  have hsize' : s.size_of_heap = V.length := by simpa [State.init] using hsize
  have := extract_all_faults V.length s hlen hsize' (by rw [hsize']; exact hfit)
  simp [hs, this, bind, Except.bind]

theorem extraction_run_reads_out_of_bounds_witness :
    (([5, 3, 8, 1] : List Int) ≠ [] ∧ (([5, 3, 8, 1] : List Int).length : Int) < max_size ∧
      (insert_all State.init [5, 3, 8, 1] >>= extract_all [5, 3, 8, 1].length) =
        .error (.out_of_bounds (-1))) ∧
    (([-1, -2, -3, -4] : List Int) ≠ [] ∧
      (([-1, -2, -3, -4] : List Int).length : Int) < max_size ∧
      (insert_all State.init [-1, -2, -3, -4] >>= extract_all [-1, -2, -3, -4].length) =
        .error (.out_of_bounds (-1))) :=
  ⟨⟨by decide, by decide,
      extraction_run_reads_out_of_bounds [5, 3, 8, 1] (by decide) (by decide)⟩,
    ⟨by decide, by decide,
      extraction_run_reads_out_of_bounds [-1, -2, -3, -4] (by decide) (by decide)⟩⟩

/-- Claim C4 (extract_max returns the maximum and removes one occurrence of it): on
every heap of one, two or three elements `extract_max()` calls `shift_down(1)` with
at most two elements left, position 1 then has no right child, and `heap[-1]` is
read; no value is returned. -/
theorem extract_max_reads_out_of_bounds (s : State) (h1 : 1 ≤ s.size_of_heap)
    (h3 : s.size_of_heap ≤ 3) : extract_max s = .error (.out_of_bounds (-1)) :=
  extract_max_small s h1 h3

theorem extract_max_reads_out_of_bounds_witness :
    max_heap (State.of_list [7, -5, -3] 3) ∧
      (1 : Int) ≤ (State.of_list [7, -5, -3] 3).size_of_heap ∧
      (State.of_list [7, -5, -3] 3).size_of_heap ≤ 3 ∧
      extract_max (State.of_list [7, -5, -3] 3) = .error (.out_of_bounds (-1)) := by
  refine ⟨?_, by decide, by decide,
    extract_max_reads_out_of_bounds (State.of_list [7, -5, -3] 3) (by decide) (by decide)⟩
  intro i h1 h2
  have h2' : i ≤ 3 := h2
  have : i = 2 ∨ i = 3 := by omega
  rcases this with h | h <;> subst h <;> decide

/-- Claim C5: in a state that satisfies the max-heap invariant, with `size_of_heap`
non-negative and position `size_of_heap+1` a slot of the vector, `insert(v)` returns,
`size_of_heap` has grown by exactly one, and the values at positions
1..size_of_heap are the old ones plus one occurrence of v. In addition the new state
satisfies the max-heap invariant again. -/
theorem insert_adds_one_element (s : State) (v : Int) (hinv : max_heap s)
    (h0 : 0 ≤ s.size_of_heap) (hslot : in_store (s.size_of_heap + 1)) :
    ∃ s', insert s v = .ok s' ∧ s'.size_of_heap = s.size_of_heap + 1 ∧
      elements s' = v ::ₘ elements s ∧ max_heap s' := by
  obtain ⟨s', h1, h2, h3, h4⟩ := insert_spec s v h0 hslot
  exact ⟨s', h1, h2, h3, h4 hinv⟩

theorem insert_adds_one_element_witness :
    max_heap (State.of_list [8, 5] 2) ∧
      (0 : Int) ≤ (State.of_list [8, 5] 2).size_of_heap ∧
      in_store ((State.of_list [8, 5] 2).size_of_heap + 1) ∧
      ∃ s', insert (State.of_list [8, 5] 2) 9 = .ok s' ∧
        s'.size_of_heap = (State.of_list [8, 5] 2).size_of_heap + 1 ∧
        elements s' = 9 ::ₘ elements (State.of_list [8, 5] 2) ∧ max_heap s' := by
  have hinv : max_heap (State.of_list [8, 5] 2) := by
    intro i h1 h2
    have h2' : i ≤ 2 := h2
    have : i = 2 := by omega
    subst this; decide
  exact ⟨hinv, by decide, by decide,
    insert_adds_one_element (State.of_list [8, 5] 2) 9 hinv (by decide) (by decide)⟩

/-- Claim C6 (build_heap sets count = n, permutes positions 1..n and establishes the
max-heap property): for every n from 1 up to the last slot and every content, the
loop starts at position ceil(n/2), which has no right child, and that first
`shift_down` reads `heap[-1]`. Only n = 0 (no iteration) completes. -/
theorem build_heap_reads_out_of_bounds (s : State) (n : Int) (h1 : 1 ≤ n)
    (hn : n < max_size) : build_heap s n = .error (.out_of_bounds (-1)) :=
  build_heap_faults s n h1 hn

theorem build_heap_reads_out_of_bounds_witness :
    (1 : Int) ≤ 5 ∧ (5 : Int) < max_size ∧
      build_heap (State.of_list [-1, -2, -3, -4, -5] 0) 5 = .error (.out_of_bounds (-1)) :=
  ⟨by decide, by decide,
    build_heap_reads_out_of_bounds (State.of_list [-1, -2, -3, -4, -5] 0) 5 (by decide)
      (by decide)⟩

/-- Claim C7: in a state that satisfies the max-heap invariant and has at least one
element, `get_max()` returns `heap[1]` and the unchanged state; that value is at
least the value at every position 1..size_of_heap, it is one of the elements, and
every element is at most it. -/
theorem get_max_is_maximum (s : State) (hinv : max_heap s) (h1 : 1 ≤ s.size_of_heap) :
    get_max s = .ok (s.heap 1, s) ∧
      (∀ i : Int, 1 ≤ i → i ≤ s.size_of_heap → s.heap i ≤ s.heap 1) ∧
      s.heap 1 ∈ elements s ∧ ∀ x ∈ elements s, x ≤ s.heap 1 := by
  refine ⟨?_, le_root s hinv, ?_, ?_⟩
  · simp [get_max, read_ok, in_store_one, bind, Except.bind, pure, Except.pure]
  · exact Multiset.mem_map.mpr ⟨1, by
      show (1 : Int) ∈ Finset.Icc 1 s.size_of_heap
      simp [Finset.mem_Icc, h1], rfl⟩
  · intro x hx
    obtain ⟨i, hi, rfl⟩ := Multiset.mem_map.mp hx
    have hi' : i ∈ Finset.Icc 1 s.size_of_heap := hi
    rw [Finset.mem_Icc] at hi'
    exact le_root s hinv i hi'.1 hi'.2

theorem get_max_is_maximum_witness :
    max_heap (State.of_list [9, 7, 8] 3) ∧ (1 : Int) ≤ (State.of_list [9, 7, 8] 3).size_of_heap ∧
      get_max (State.of_list [9, 7, 8] 3) = .ok (9, State.of_list [9, 7, 8] 3) := by
  have hinv : max_heap (State.of_list [9, 7, 8] 3) := by
    intro i h1 h2
    have h2' : i ≤ 3 := h2
    have : i = 2 ∨ i = 3 := by omega
    rcases this with h | h <;> subst h <;> decide
  exact ⟨hinv, by decide, (get_max_is_maximum (State.of_list [9, 7, 8] 3) hinv (by decide)).1⟩

/-- Claim C8 (remove(i) takes out one occurrence of the value at i): on every heap of
one, two or three elements and every valid i, `remove(i)` writes the sentinel,
shifts it up, and then `extract_max()` reads `heap[-1]` inside `shift_down(1)`; the
call does not end in a state. -/
theorem remove_reads_out_of_bounds (s : State) (i : Int) (h1 : 1 ≤ i)
    (hi : i ≤ s.size_of_heap) (h3 : s.size_of_heap ≤ 3) :
    remove s i = .error (.out_of_bounds (-1)) :=
  remove_small s i h1 hi h3

theorem remove_reads_out_of_bounds_witness :
    (1 : Int) ≤ 2 ∧ (2 : Int) ≤ (State.of_list [-1, -5, -3] 3).size_of_heap ∧
      (State.of_list [-1, -5, -3] 3).size_of_heap ≤ 3 ∧
      remove (State.of_list [-1, -5, -3] 3) 2 = .error (.out_of_bounds (-1)) :=
  ⟨by decide, by decide, by decide,
    remove_reads_out_of_bounds (State.of_list [-1, -5, -3] 3) 2 (by decide) (by decide)
      (by decide)⟩

/-- Claim C9 (update(i, v) replaces one occurrence of the old value by v): whenever
position i has no right child and v is not greater than the value stored at i,
`update(i, v)` takes the `shift_down(i)` branch, which reads `heap[-1]`; the call does
not end in a state. -/
theorem update_reads_out_of_bounds (s : State) (i v : Int) (h1 : 1 ≤ i)
    (hi : i ≤ s.size_of_heap) (hsz : s.size_of_heap < max_size)
    (hr : s.size_of_heap < 2 * i + 1) (hv : v ≤ s.heap i) :
    update s i v = .error (.out_of_bounds (-1)) :=
  update_downward_missing_child s i v h1 hi hsz hr hv

theorem update_reads_out_of_bounds_witness :
    (1 : Int) ≤ 3 ∧ (3 : Int) ≤ (State.of_list [5, 4, 3, 2, 1] 5).size_of_heap ∧
      (State.of_list [5, 4, 3, 2, 1] 5).size_of_heap < max_size ∧
      (State.of_list [5, 4, 3, 2, 1] 5).size_of_heap < 2 * 3 + 1 ∧
      (-2 : Int) ≤ (State.of_list [5, 4, 3, 2, 1] 5).heap 3 ∧
      update (State.of_list [5, 4, 3, 2, 1] 5) 3 (-2) = .error (.out_of_bounds (-1)) :=
  ⟨by decide, by decide, by decide, by decide, by decide,
    update_reads_out_of_bounds (State.of_list [5, 4, 3, 2, 1] 5) 3 (-2) (by decide)
      (by decide) (by decide) (by decide) (by decide)⟩

/-- Claim C10 (remove(i) returns the sentinel INT_MAX): on the seven-element max-heap
-1 -3 -2 -7 -5 -6 -4, `remove(3)` moves the sentinel to the root, `extract_max()`
puts -4 there with six elements left, `shift_down(1)` swaps it down to position 3,
which now has a left child only, and the test of the missing right child (-1) reads
`heap[-1]`; `extract_max` never reaches its `return`. -/
theorem remove_middle_of_seven_returns_nothing :
    remove (State.of_list [-1, -3, -2, -7, -5, -6, -4] 7) 3 =
      .error (.out_of_bounds (-1)) := by
  rfl

/-- Claim C13: in every state with `size_of_heap == max_size`, `insert(v)` takes the
"No room" branch and returns with `size_of_heap` and the whole store as they were. -/
theorem insert_on_full_heap_changes_nothing (s : State) (v : Int)
    (hfull : s.size_of_heap = max_size) : insert s v = .ok s := by
  simp [insert, hfull, pure, Except.pure]

theorem insert_on_full_heap_changes_nothing_witness :
    (State.of_list [3, 2, 1] max_size).size_of_heap = max_size ∧
      insert (State.of_list [3, 2, 1] max_size) 9 = .ok (State.of_list [3, 2, 1] max_size) :=
  ⟨rfl, insert_on_full_heap_changes_nothing (State.of_list [3, 2, 1] max_size) 9 rfl⟩

/-- Claim C14 (the store has a slot for every position 1..max_size, so the insert at
count == max_size-1 stays inside it): the vector has `max_size` slots, indices
0..max_size-1, and position `max_size` is not one of them. The guard of `insert`
only stops at `size_of_heap == max_size`, so the insert at `max_size-1` writes
`heap[max_size]`, one past the end. -/
theorem insert_into_last_position_writes_past_the_end (s : State) (v : Int)
    (hlast : s.size_of_heap = max_size - 1) :
    ¬ in_store max_size ∧ insert s v = .error (.out_of_bounds max_size) := by
  have hne : ¬ in_store max_size := by simp [in_store]
  refine ⟨hne, ?_⟩
  have h1 : s.size_of_heap ≠ max_size := by omega
  have h2 : s.size_of_heap + 1 = max_size := by omega
  simp [insert, h1, h2, State.write, hne, bind, Except.bind]

theorem insert_into_last_position_writes_past_the_end_witness :
    (State.of_list [3, 2, 1] (max_size - 1)).size_of_heap = max_size - 1 ∧
      ¬ in_store max_size ∧
      insert (State.of_list [3, 2, 1] (max_size - 1)) 9 = .error (.out_of_bounds max_size) :=
  ⟨rfl, insert_into_last_position_writes_past_the_end
    (State.of_list [3, 2, 1] (max_size - 1)) 9 rfl⟩

/-- Claim C16 (shift_down touches positions 1..count only and never uses a missing
child as an index): for every valid position `i` without a right child (a leaf, or a
node with a left child only) one of `left_child(i)`, `right_child(i)` is -1, and
`shift_down(i)` uses that -1 as an index: it reads `heap[-1]`. -/
theorem shift_down_uses_missing_child_as_index (s : State) (i : Int) (h1 : 1 ≤ i)
    (hi : i ≤ s.size_of_heap) (hsz : s.size_of_heap < max_size)
    (hr : s.size_of_heap < 2 * i + 1) :
    right_child s i = -1 ∧ ¬ in_store (-1) ∧
      shift_down s i = .error (.out_of_bounds (-1)) :=
  ⟨by simp [right_child, hr], not_in_store_neg_one,
    shift_down_missing_child s i h1 (by omega) (by omega) hsz hr⟩

theorem shift_down_uses_missing_child_as_index_witness :
    (1 : Int) ≤ 1 ∧ (1 : Int) ≤ (State.of_list [-5, -7] 2).size_of_heap ∧
      (State.of_list [-5, -7] 2).size_of_heap < max_size ∧
      (State.of_list [-5, -7] 2).size_of_heap < 2 * 1 + 1 ∧
      right_child (State.of_list [-5, -7] 2) 1 = -1 ∧ ¬ in_store (-1) ∧
      shift_down (State.of_list [-5, -7] 2) 1 = .error (.out_of_bounds (-1)) :=
  ⟨by decide, by decide, by decide, by decide,
    shift_down_uses_missing_child_as_index (State.of_list [-5, -7] 2) 1 (by decide)
      (by decide) (by decide) (by decide)⟩

/-- Claim C17 (shift_down(i) turns the subtree at i into a max-heap and changes
nothing on a leaf): on every valid leaf `i` the subtrees below are empty, so the
precondition holds, yet `shift_down(i)` does not return the unchanged state:
`left_child(i)` is -1 and the first comparison reads `heap[-1]`. -/
theorem shift_down_on_leaf_reads_out_of_bounds (s : State) (i : Int) (h1 : 1 ≤ i)
    (hi : i ≤ s.size_of_heap) (hsz : s.size_of_heap < max_size)
    (hleaf : s.size_of_heap < 2 * i) :
    left_child s i = -1 ∧ shift_down s i = .error (.out_of_bounds (-1)) :=
  ⟨by simp [left_child, hleaf],
    shift_down_missing_child s i h1 (by omega) (by omega) hsz (by omega)⟩

theorem shift_down_on_leaf_reads_out_of_bounds_witness :
    (1 : Int) ≤ 2 ∧ (2 : Int) ≤ (State.of_list [-1, -5, -3] 3).size_of_heap ∧
      (State.of_list [-1, -5, -3] 3).size_of_heap < max_size ∧
      (State.of_list [-1, -5, -3] 3).size_of_heap < 2 * 2 ∧
      left_child (State.of_list [-1, -5, -3] 3) 2 = -1 ∧
      shift_down (State.of_list [-1, -5, -3] 3) 2 = .error (.out_of_bounds (-1)) :=
  ⟨by decide, by decide, by decide, by decide,
    shift_down_on_leaf_reads_out_of_bounds (State.of_list [-1, -5, -3] 3) 2 (by decide)
      (by decide) (by decide) (by decide)⟩

/-- Claim C20: for every `size_of_heap` within the data model (at most `max_size`)
and every position `i` in 1..size_of_heap, the doubled positions fit in an `int`,
`parent(left_child(i)) == i` when `left_child(i)` is not -1,
`parent(right_child(i)) == i` when `right_child(i)` is not -1, and for `i > 1` the
parent is a position in 1..size_of_heap-1 of which `i` is the left or the right
child. -/
theorem navigation_round_trip (s : State) (i : Int) (hmax : s.size_of_heap ≤ max_size)
    (h1 : 1 ≤ i) (hi : i ≤ s.size_of_heap) :
    2 * i + 1 ≤ positive_infinity ∧
      (left_child s i ≠ -1 → parent (left_child s i) = i) ∧
      (right_child s i ≠ -1 → parent (right_child s i) = i) ∧
      (1 < i → 1 ≤ parent i ∧ parent i ≤ s.size_of_heap - 1 ∧
        (i = left_child s (parent i) ∨ i = right_child s (parent i))) := by
  refine ⟨by simp only [max_size] at hmax; simp only [positive_infinity]; omega,
    ?_, ?_, ?_⟩
  · intro hl
    by_cases h : 2 * i > s.size_of_heap
    · simp [left_child, h] at hl
    · simp only [left_child, h, if_false]
      rw [parent_eq_half (2 * i) (by omega)]; omega
  · intro hr
    by_cases h : 2 * i + 1 > s.size_of_heap
    · simp [right_child, h] at hr
    · simp only [right_child, h, if_false]
      rw [parent_eq_half (2 * i + 1) (by omega)]; omega
  · intro hgt
    rw [parent_eq_half i hgt]
    refine ⟨by omega, by omega, ?_⟩
    rcases Int.emod_two_eq_zero_or_one i with hev | hodd
    · left
      have h : ¬ 2 * (i / 2) > s.size_of_heap := by omega
      simp only [left_child, h, if_false]; omega
    · right
      have h : ¬ 2 * (i / 2) + 1 > s.size_of_heap := by omega
      simp only [right_child, h, if_false]; omega

theorem navigation_round_trip_witness :
    (State.of_list [9, 7, 8, 3, 5] 5).size_of_heap ≤ max_size ∧ (1 : Int) ≤ 2 ∧
      (2 : Int) ≤ (State.of_list [9, 7, 8, 3, 5] 5).size_of_heap ∧
      parent (left_child (State.of_list [9, 7, 8, 3, 5] 5) 2) = 2 ∧
      parent (right_child (State.of_list [9, 7, 8, 3, 5] 5) 2) = 2 ∧
      parent 2 = 1 ∧ 2 = left_child (State.of_list [9, 7, 8, 3, 5] 5) (parent 2) :=
  have h := navigation_round_trip (State.of_list [9, 7, 8, 3, 5] 5) 2 (by decide)
    (by decide) (by decide)
  ⟨by decide, by decide, by decide, h.2.1 (by decide), h.2.2.1 (by decide), by decide,
    by decide⟩

/-- Claim C11 (heap_sort(a, n) sorts a vector `a` of the caller): for every vector
`a`, every state of the global heap and every n ≥ 1 the call stops inside
`build_heap`, before `a` has been touched: `build_heap(a,n)` ignores `a`, sets
`size_of_heap = n` and runs `shift_down` on the global `heap`, whose first call
reads outside that vector (`heap[-1]`, or `heap[n]` when n is beyond the store). -/
theorem heap_sort_on_other_vector_reads_out_of_bounds (s : State) (a : Vec) (n : Int)
    (h1 : 1 ≤ n) :
    ∃ k, ¬ in_store k ∧ heap_sort_on s a n = .error (.out_of_bounds k) := by
  obtain ⟨k, hk, hb⟩ := build_heap_faults_any s n h1
  exact ⟨k, hk, by simp [heap_sort_on, hb, bind, Except.bind]⟩

theorem heap_sort_on_other_vector_reads_out_of_bounds_witness :
    (1 : Int) ≤ 5 ∧
      heap_sort_on State.init (Vec.of_list [9, 4, 7, 1, 3]) 5 =
        .error (.out_of_bounds (-1)) ∧
      ∃ k, ¬ in_store k ∧
        heap_sort_on State.init (Vec.of_list [9, 4, 7, 1, 3]) 5 = .error (.out_of_bounds k) :=
  ⟨by decide, rfl,
    heap_sort_on_other_vector_reads_out_of_bounds State.init (Vec.of_list [9, 4, 7, 1, 3]) 5
      (by decide)⟩

/-- What `shift_up` does on every position that is a slot of the vector
(`i < max_size`): let `i` be in 1..size_of_heap such that every other valid position
`j > 1` satisfies `heap[parent(j)] >= heap[j]` and, when `i > 1`, no existing child
of `i` is greater than the parent of `i`. Then `shift_up(i)` returns, the max-heap
invariant holds at every valid position, positions 1..size_of_heap hold the same
multiset, `size_of_heap` is unchanged, and every position off the path `i`,
`parent(i)`, ..., `1` holds its old value. -/
theorem shift_up_restores_max_heap (s : State) (i : Int) (h1 : 1 ≤ i)
    (hi : i ≤ s.size_of_heap) (hslot : i < max_size)
    (hothers : ∀ j : Int, 1 < j → j ≤ s.size_of_heap → j ≠ i →
      s.heap j ≤ s.heap (parent j))
    (hleft : 1 < i → left_child s i ≠ -1 → s.heap (left_child s i) ≤ s.heap (parent i))
    (hright : 1 < i → right_child s i ≠ -1 →
      s.heap (right_child s i) ≤ s.heap (parent i)) :
    ∃ s', shift_up s i = .ok s' ∧ max_heap s' ∧ elements s' = elements s ∧
      s'.size_of_heap = s.size_of_heap ∧ ∀ p : Int, p ∉ root_path i → s'.heap p = s.heap p := by
  obtain ⟨s', hrun, hsize, hel⟩ := shift_up_ok s i hslot hi
  refine ⟨s', hrun, ?_, hel, hsize, ?_⟩
  · intro j hj1 hjn
    rw [parent_eq_half j hj1]
    rw [hsize] at hjn
    refine shift_up_loop_repairs _ s i h1 hslot hi ?_ ?_ s' hrun j hj1 hjn
    · intro k hk1 hkn hkne
      have := hothers k hk1 hkn hkne
      rwa [parent_eq_half k hk1] at this
    · intro hgt c hc1 hcn hcp
      rw [← parent_eq_half i hgt]
      have hc : c = 2 * i ∨ c = 2 * i + 1 := by omega
      rcases hc with hc | hc
      · have hl : left_child s i = c := by
          have : ¬ 2 * i > s.size_of_heap := by omega
          simp [left_child, this, hc]
        have := hleft hgt (by rw [hl]; omega)
        rwa [hl] at this
      · have hr : right_child s i = c := by
          have : ¬ 2 * i + 1 > s.size_of_heap := by omega
          simp [right_child, this, hc]
        have := hright hgt (by rw [hr]; omega)
        rwa [hr] at this
  · intro p hp
    exact shift_up_loop_frame _ s i h1 hslot s' hrun p hp

theorem shift_up_restores_max_heap_witness :
    ∃ s', shift_up (State.of_list [9, 10, 8, 7, 1] 5) 2 = .ok s' ∧ max_heap s' ∧
      elements s' = elements (State.of_list [9, 10, 8, 7, 1] 5) ∧
      s'.size_of_heap = (State.of_list [9, 10, 8, 7, 1] 5).size_of_heap ∧
      ∀ p : Int, p ∉ root_path 2 → s'.heap p = (State.of_list [9, 10, 8, 7, 1] 5).heap p := by
  refine shift_up_restores_max_heap (State.of_list [9, 10, 8, 7, 1] 5) 2 (by decide)
    (by decide) (by decide) ?_ (fun _ _ => by decide) (fun _ _ => by decide)
  intro j h1 h2 h3
  have h2' : j ≤ 5 := h2
  have : j = 3 ∨ j = 4 ∨ j = 5 := by omega
  rcases this with h | h | h <;> subst h <;> decide

/-- Claim C18 (shift_up(i) restores the max-heap for every valid position i): the
valid positions of the data model go up to `max_size`, but the vector has no slot
`max_size`. In every state with `size_of_heap == max_size` the position `max_size` is
valid, it has no children, and `shift_up(max_size)` evaluates
`heap[parent(i)]<heap[i]` with `i = max_size`: it reads `heap[max_size]`, one past
the end of the vector, and does not return. -/
theorem shift_up_at_last_position_reads_past_the_end (s : State)
    (hfull : s.size_of_heap = max_size) :
    (1 ≤ max_size ∧ max_size ≤ s.size_of_heap) ∧ left_child s max_size = -1 ∧
      right_child s max_size = -1 ∧ ¬ in_store max_size ∧
      shift_up s max_size = .error (.out_of_bounds max_size) := by
  have hgt : max_size > 1 := by decide
  have hp : parent max_size = max_size / 2 := parent_eq_half _ hgt
  have hinp : in_store (max_size / 2) := by decide
  have hnot : ¬ in_store max_size := by simp [in_store]
  refine ⟨⟨by decide, by rw [hfull]⟩, ?_, ?_, hnot, ?_⟩
  · have : 2 * max_size > s.size_of_heap := by rw [hfull]; decide
    simp [left_child, this]
  · have : 2 * max_size + 1 > s.size_of_heap := by rw [hfull]; decide
    simp [right_child, this]
  · simp [shift_up, shift_up_loop, hgt, hp, read_ok, hinp, read_fault, hnot, bind,
      Except.bind]

theorem shift_up_at_last_position_reads_past_the_end_witness :
    (⟨fun _ => 0, max_size⟩ : State).size_of_heap = max_size ∧
      (∀ j : Int, 1 < j → j ≤ (⟨fun _ => 0, max_size⟩ : State).size_of_heap →
        j ≠ max_size →
        (⟨fun _ => 0, max_size⟩ : State).heap j ≤
          (⟨fun _ => 0, max_size⟩ : State).heap (parent j)) ∧
      (1 ≤ max_size ∧ max_size ≤ (⟨fun _ => 0, max_size⟩ : State).size_of_heap) ∧
      left_child ⟨fun _ => 0, max_size⟩ max_size = -1 ∧
      right_child ⟨fun _ => 0, max_size⟩ max_size = -1 ∧ ¬ in_store max_size ∧
      shift_up ⟨fun _ => 0, max_size⟩ max_size = .error (.out_of_bounds max_size) :=
  ⟨rfl, fun _ _ _ _ => le_refl _,
    shift_up_at_last_position_reads_past_the_end ⟨fun _ => 0, max_size⟩ rfl⟩

/-- Claim C19 (shift_down(i) terminates after at most height-many recursive calls,
each on a child position): on the seven-element heap -9 -2 -3 -4 -5 -6 -7,
`shift_down(1)` makes two recursive calls, on positions 2 and 4 (a budget of two
calls in all is not enough), and the call on the leaf 4 does not return: it reads
`heap[-1]`. From that read on the run is undefined; a larger word found there would
be taken as the maximum and the next call made on position -1, which is no child
position. -/
theorem shift_down_stops_at_out_of_bounds_read :
    shift_down_rec 2 (State.of_list [-9, -2, -3, -4, -5, -6, -7] 7) 1 = .error .out_of_fuel ∧
      shift_down_rec 3 (State.of_list [-9, -2, -3, -4, -5, -6, -7] 7) 1 =
        .error (.out_of_bounds (-1)) ∧
      shift_down (State.of_list [-9, -2, -3, -4, -5, -6, -7] 7) 1 =
        .error (.out_of_bounds (-1)) :=
  ⟨rfl, rfl, rfl⟩

/-- Claim C12 (n calls of extract_max after build_heap return the sequence that
heap_sort leaves in positions 1..n): for every n from 1 up to the last slot and
every content, neither run produces a sequence. Both start with `build_heap`, whose
first `shift_down` is made on a position without a right child and reads `heap[-1]`.
With one value, where the two sequences could only be that value, the code returns
neither. -/
theorem round_trip_reads_out_of_bounds (s : State) (n : Int) (h1 : 1 ≤ n)
    (hn : n < max_size) :
    build_then_extract s n = .error (.out_of_bounds (-1)) ∧
      heap_sort s n = .error (.out_of_bounds (-1)) := by
  have hb := build_heap_faults s n h1 hn
  exact ⟨by simp [build_then_extract, hb, bind, Except.bind],
    by simp [heap_sort, hb, bind, Except.bind]⟩

theorem round_trip_reads_out_of_bounds_witness :
    (1 : Int) ≤ 1 ∧ (1 : Int) < max_size ∧
      build_then_extract (State.of_list [-5] 0) 1 = .error (.out_of_bounds (-1)) ∧
      heap_sort (State.of_list [-5] 0) 1 = .error (.out_of_bounds (-1)) :=
  ⟨by decide, by decide,
    round_trip_reads_out_of_bounds (State.of_list [-5] 0) 1 (by decide) (by decide)⟩

end HeapLibrary
